import Mathlib

/-!
Verification of the crossword CSP solver in `generate.py`
(`CrosswordCreator`: node consistency, AC-3 arc consistency, heuristic
backtracking search).

The embedding is shallow: Python dicts keyed by `Variable` become
association lists, Python sets of words become lists (the list order
standing for the set's iteration order), in-place mutation of
`self.domains` and of the `assignment` dict becomes explicit state
passing, and the untyped return value of `backtrack` (either the
assignment dict or the Python string `"failure"`) becomes the sum type
`PyResult`.  `PyResult.err` models a raised exception / stuck state
(e.g. calling `self.domains[None]` after `select_unassigned_variable`
returns `None`, or recursion-fuel exhaustion); it is proved unreachable
on the runs the theorems are about.
-/

namespace CrosswordCSP

/-- Modelled from the spec (the `crossword.py` collaborator is not part of
the sources): a slot direction, one of two axis-aligned orientations. -/
inductive Direction where
  | across : Direction
  | down : Direction
deriving DecidableEq

/-- Modelled from the spec (the `crossword.py` collaborator is not part of
the sources): a crossword slot with immutable row, column, direction and
length; equality is structural, by these four fields. -/
structure Variable where
  row : Nat
  col : Nat
  dir : Direction
  length : Nat
deriving DecidableEq

/-- A word; Python strings become lists of characters. -/
abbrev Word := List Char

/-- Character of `w` at index `i`.  Python `w[i]` raises on an
out-of-range index; the model totalizes with a default character, and
every concrete input used in the theorems stays in range. -/
def charAt (w : Word) (i : Nat) : Char :=
  w.getD i '?'

/-- Modelled from the spec (the `crossword.py` collaborator is not part of
the sources): the puzzle structure handed to `CrosswordCreator` — the
finite variable set, the pairwise overlap relation (`none` when the two
slots share no cell, otherwise the pair of intra-word indices that must
agree), and the word list. -/
structure Crossword where
  vars : List Variable
  overlaps : Variable → Variable → Option (Nat × Nat)
  words : List Word

/-- Modelled from the spec: `Crossword.neighbors(x)` — all variables `y`
with `overlap(x, y) ≠ None`. -/
def neighbors (c : Crossword) (x : Variable) : List Variable :=
  c.vars.filter (fun y => decide (y ≠ x) && (c.overlaps x y).isSome)

/-- The mutable domain store `self.domains`: an association list from
variables to their current candidate-word list. -/
abbrev Domains := List (Variable × List Word)

/-- Dictionary lookup in the domain store (first matching entry;
missing keys give `[]`, which is never hit on the modelled runs since
`__init__` populates every variable). -/
def domOf : Domains → Variable → List Word
  | [], _ => []
  | (v, ws) :: rest, x => if v = x then ws else domOf rest x

/-- In-place overwrite `self.domains[x] = ws` (first matching entry). -/
def updateD : Domains → Variable → List Word → Domains
  | [], _, _ => []
  | (v, ws0) :: rest, x, ws => if v = x then (v, ws) :: rest else (v, ws0) :: updateD rest x ws

/-- Total number of candidate words across the store; the termination
measure of AC-3. -/
def totalSize (d : Domains) : Nat :=
  (d.map (fun p => p.2.length)).sum

/-- A partial assignment, the mutable dict passed through `backtrack`:
an association list from variables to chosen words. -/
abbrev Assignment := List (Variable × Word)

/-- Dictionary lookup `assignment[v]` as an `Option`. -/
def lookupA : Assignment → Variable → Option Word
  | [], _ => none
  | (u, w) :: rest, v => if u = v then some w else lookupA rest v

/-- Dictionary insertion `assignment[v] = w`: overwrite in place if the
key is present, else append (Python dicts keep insertion order). -/
def insertA : Assignment → Variable → Word → Assignment
  | [], v, w => [(v, w)]
  | (u, w0) :: rest, v, w => if u = v then (v, w) :: rest else (u, w0) :: insertA rest v w

/-- Dictionary removal `assignment.pop(v)` (first matching entry). -/
def popA : Assignment → Variable → Assignment
  | [], _ => []
  | (u, w0) :: rest, v => if u = v then rest else (u, w0) :: popA rest v

/-- `CrosswordCreator.__init__`: every variable starts with the full
word list as its domain. -/
def initDomains (c : Crossword) : Domains :=
  c.vars.map (fun v => (v, c.words))

/-- `CrosswordCreator.enforce_node_consistency`: drop from each domain
every word whose length differs from the variable's length. -/
def enforceNodeConsistency (d : Domains) : Domains :=
  d.map (fun p => (p.1, p.2.filter (fun w => w.length == p.1.length)))

/-- `CrosswordCreator.revise(x, y)`: if `overlaps[(x,y)]` is `None`,
change nothing and report `false`; otherwise keep in `domains[x]`
exactly the words `X` having some `Y` in `domains[y]` with
`X[i] == Y[j]` and `X != Y`, and report whether anything was removed. -/
def revise (c : Crossword) (d : Domains) (x y : Variable) : Domains × Bool :=
  match c.overlaps x y with
  | none => (d, false)
  | some (i, j) =>
    let dx := domOf d x
    let dy := domOf d y
    let keep := dx.filter (fun X => decide (∃ Y ∈ dy, charAt X i = charAt Y j ∧ X ≠ Y))
    (updateD d x keep, decide (keep.length < dx.length))

/-- The initial AC-3 worklist when `arcs` is not supplied: every ordered
pair of variables whose overlap is defined (`self.crossword.overlaps`
holds every ordered pair of distinct variables; `ac3` keeps the keys
with a non-`None` value). -/
def initialArcs (c : Crossword) : List (Variable × Variable) :=
  c.vars.flatMap (fun x =>
    (c.vars.filter (fun y => decide (y ≠ x) && (c.overlaps x y).isSome)).map
      (fun y => (x, y)))

/-- The `while` loop of `CrosswordCreator.ac3`, with the mutated state
(domain store and worklist) passed explicitly: pop the front arc
`(x, y)`, call `revise(x, y)`; on a revision that emptied `domains[x]`
stop with `false`; on any other revision push `(z, x)` for every
neighbor `z` of `x` other than `y` onto the back; report `true` when
the queue drains.  The result carries the final domain store, the final
worklist contents and the returned boolean. -/
def ac3Aux (c : Crossword) (d : Domains) :
    List (Variable × Variable) → Domains × List (Variable × Variable) × Bool
  | [] => (d, [], true)
  | (x, y) :: rest =>
    if h : (revise c d x y).2 = true then
      if domOf (revise c d x y).1 x = [] then ((revise c d x y).1, rest, false)
      else
        ac3Aux c (revise c d x y).1
          (rest ++ ((neighbors c x).filter (fun z => decide (z ≠ y))).map (fun z => (z, x)))
    else
      ac3Aux c (revise c d x y).1 rest
termination_by arcs => (totalSize d, arcs.length)
decreasing_by
  · -- a revision strictly shrinks the store
    have key : ∀ (d0 : Domains) (x0 : Variable) (ws : List Word),
        ws.length < (domOf d0 x0).length → totalSize (updateD d0 x0 ws) < totalSize d0 := by
      intro d0 x0 ws hw
      induction d0 with
      | nil => simp [domOf] at hw
      | cons p rest ih =>
        obtain ⟨v, l⟩ := p
        by_cases hv : v = x0
        · subst hv
          simp [domOf] at hw
          simp [updateD, totalSize, List.map_cons, List.sum_cons]
          omega
        · simp [domOf, hv] at hw
          have := ih hw
          simp [updateD, hv, totalSize, List.map_cons, List.sum_cons] at this ⊢
          omega
    apply Prod.Lex.left
    revert h
    cases hov : c.overlaps x y with
    | none => simp [revise, hov]
    | some p =>
      obtain ⟨i, j⟩ := p
      intro h
      simp only [revise, hov, decide_eq_true_eq] at h ⊢
      exact key d x _ h
  · -- no revision: the store is unchanged and the queue shrinks
    have hfalse : (revise c d x y).2 = false := by
      cases hb : (revise c d x y).2
      · rfl
      · exact absurd hb h
    have hfst : (revise c d x y).1 = d := by
      revert hfalse
      cases hov : c.overlaps x y with
      | none => simp [revise, hov]
      | some p =>
        obtain ⟨i, j⟩ := p
        intro hfalse
        simp only [revise, hov, decide_eq_false_iff_not, Nat.not_lt] at hfalse
        have hle : ((domOf d x).filter
            (fun X => decide (∃ Y ∈ domOf d y, charAt X i = charAt Y j ∧ X ≠ Y))).length ≤
            (domOf d x).length := List.length_filter_le _ _
        have heq : ((domOf d x).filter
            (fun X => decide (∃ Y ∈ domOf d y, charAt X i = charAt Y j ∧ X ≠ Y))) =
            domOf d x := List.Sublist.eq_of_length (List.filter_sublist _) (le_antisymm hle hfalse)
        simp only [revise, hov]
        rw [heq]
        -- updating an entry with its own current value is the identity
        clear hfalse hle heq h
        induction d with
        | nil => simp [updateD]
        | cons p rest ih =>
          obtain ⟨v, l⟩ := p
          by_cases hv : v = x
          · subst hv
            simp [updateD, domOf]
          · simp [updateD, domOf, hv]
            exact ih
    rw [hfst]
    apply Prod.Lex.right
    simp

/-- `CrosswordCreator.ac3(arcs)`: seed the worklist with `initialArcs`
when `arcs` is `None`, else with the supplied list, and run the loop.
The final worklist is returned alongside so that the fate of a
caller-supplied (and, in Python, caller-owned and mutated) list is
observable. -/
def ac3Full (c : Crossword) (d : Domains) (arcs : Option (List (Variable × Variable))) :
    Domains × List (Variable × Variable) × Bool :=
  ac3Aux c d (arcs.getD (initialArcs c))

/-- `CrosswordCreator.assignment_complete`: the assignment is complete
when it has as many entries as there are variables. -/
def assignmentComplete (c : Crossword) (a : Assignment) : Bool :=
  a.length == c.vars.length

/-- `CrosswordCreator.consistent`: for every assigned variable, its word
has the variable's length, and for every neighbor with a defined
overlap that is also assigned, the two words agree at the overlap
indices.  (The code performs no duplicate-word check.) -/
def consistent (c : Crossword) (a : Assignment) : Bool :=
  a.all (fun p =>
    p.2.length == p.1.length &&
    (neighbors c p.1).all (fun nb =>
      match c.overlaps p.1 nb with
      | none => true
      | some (i, j) =>
        match lookupA a nb with
        | none => true
        | some w2 => charAt p.2 i == charAt w2 j))

/-- Count, for candidate word `value` of `var`, how many entries of the
unassigned neighbors' domains the inner loops of
`CrosswordCreator.order_domain_values` append to `removed_choices`:
for each unassigned neighbor whose overlap index fits inside `value`,
every neighbor choice that equals `value` or disagrees at the overlap. -/
def ruledOutCount (c : Crossword) (d : Domains) (a : Assignment) (var : Variable)
    (value : Word) : Nat :=
  ((neighbors c var).filter (fun nb => (lookupA a nb).isNone)).foldl
    (fun acc nb =>
      match c.overlaps var nb with
      | none => acc
      | some (i, j) =>
        if value.length < i + 1 then acc
        else
          acc + ((domOf d nb).filter
            (fun choice => choice == value || !(charAt value i == charAt choice j))).length)
    0

/-- Insert `a` into an already sorted list: `a` lands before the first
element whose key is at least `key a`.  Since the sorted tail holds
elements that came after `a` in the input, placing `a` before
equal-keyed ones is exactly the placement a stable sort gives. -/
def insertSorted (key : α → Nat) (a : α) : List α → List α
  | [] => [a]
  | b :: l => if key a ≤ key b then a :: b :: l else b :: insertSorted key a l

/-- Stable sort by a natural-number key, modelling Python's stable
`list.sort(key=...)`. -/
def stableSortByKey (key : α → Nat) : List α → List α
  | [] => []
  | a :: l => insertSorted key a (stableSortByKey key l)

/-- `CrosswordCreator.order_domain_values`: the domain of `var` sorted
ascending (stably) by the number of neighbor-domain values each
candidate rules out. -/
def orderDomainValues (c : Crossword) (d : Domains) (var : Variable) (a : Assignment) :
    List Word :=
  stableSortByKey (ruledOutCount c d a var) (domOf d var)

/-- `CrosswordCreator.select_unassigned_variable`: collect the
unassigned variables; a singleton is returned directly and an empty
list gives `None`; otherwise sort stably by domain size, return the
first when its domain size is strictly smaller than the second's, and
otherwise sort the variables tied at the minimum domain size stably by
neighbor count and return the first — i.e. a tied variable with the
FEWEST neighbors. -/
def selectUnassignedVariable (c : Crossword) (d : Domains) (a : Assignment) :
    Option Variable :=
  let unassigned := c.vars.filter (fun v => (lookupA a v).isNone)
  match unassigned with
  | [] => none
  | [v] => some v
  | _ :: _ :: _ =>
    let sorted := stableSortByKey (fun v => (domOf d v).length) unassigned
    match sorted with
    | v0 :: v1 :: _ =>
      if (domOf d v1).length ≠ (domOf d v0).length then some v0
      else
        let tied := sorted.filter (fun v => (domOf d v).length == (domOf d v0).length)
        match stableSortByKey (fun v => (neighbors c v).length) tied with
        | t :: _ => some t
        | [] => none
    | _ => none

/-- The dynamically-typed value a call to `CrosswordCreator.backtrack`
evaluates to: the assignment dict, a Python string (the code returns
the string literal `"failure"`), or `err` for a raised exception /
exhausted recursion fuel (proved unreachable on the modelled runs). -/
inductive PyResult where
  | dict : Assignment → PyResult
  | str : String → PyResult
  | err : PyResult
deriving DecidableEq

/-- The `for word in ...` loop of `CrosswordCreator.backtrack`, with the
words still to try and the current state of the (in Python, mutated)
assignment dict made explicit; `recur` is the recursive `backtrack`
call.  Each word is tentatively inserted; on an inconsistent extension,
or on a recursive result equal to the string `"failure"`, the binding
is popped again and the next word is tried; a recursive result that is
not `"failure"` is returned as is.  An exhausted loop returns the
string `"failure"` with the assignment as the loop left it. -/
def tryWords (c : Crossword) (v : Variable) (recur : Assignment → PyResult × Assignment) :
    List Word → Assignment → PyResult × Assignment
  | [], a => (PyResult.str "failure", a)
  | w :: ws, a =>
    let a1 := insertA a v w
    if consistent c a1 then
      let r := recur a1
      if r.1 = PyResult.str "failure" then tryWords c v recur ws (popA r.2 v)
      else r
    else tryWords c v recur ws (popA a1 v)

/-- `CrosswordCreator.backtrack`, with explicit recursion fuel (the
Python recursion adds one binding per level, so `|vars| + 1` fuel always
suffices): a complete assignment is returned at once; otherwise the
selected variable's candidates are tried in the STORED DOMAIN ORDER,
`self.domains[variable]` — the code never consults
`order_domain_values`.  A `None` from the selector would make Python
raise on `self.domains[None]`; the model returns `err` there. -/
def backtrackAux (c : Crossword) (d : Domains) : Nat → Assignment → PyResult × Assignment
  | 0, a => (PyResult.err, a)
  | n + 1, a =>
    if assignmentComplete c a then (PyResult.dict a, a)
    else
      match selectUnassignedVariable c d a with
      | none => (PyResult.err, a)
      | some v => tryWords c v (backtrackAux c d n) (domOf d v) a

/-- The value of a top-level `backtrack(assignment)` call. -/
def backtrack (c : Crossword) (d : Domains) (a : Assignment) : PyResult :=
  (backtrackAux c d (c.vars.length + 1) a).1

/-- `CrosswordCreator.solve`: enforce node consistency on the initial
domains, run `ac3` (its boolean is discarded, as in the code), then
backtrack from the empty assignment. -/
def solve (c : Crossword) : PyResult :=
  backtrack c (ac3Full c (enforceNodeConsistency (initDomains c)) none).1 []

/-- Modelled from the spec: the backtracking loop as section 4.4
prescribes it, identical to `backtrackAux` except that the candidate
words are tried "in least-constraining-value order, i.e. exactly the
sequence produced by order_domain_values for that variable and the
current assignment".  Used to compare the code's value ordering with
the spec's. -/
def backtrackAuxSpecLCV (c : Crossword) (d : Domains) : Nat → Assignment → PyResult × Assignment
  | 0, a => (PyResult.err, a)
  | n + 1, a =>
    if assignmentComplete c a then (PyResult.dict a, a)
    else
      match selectUnassignedVariable c d a with
      | none => (PyResult.err, a)
      | some v => tryWords c v (backtrackAuxSpecLCV c d n) (orderDomainValues c d v a) a

/-- Modelled from the spec: the top-level spec-side backtracking call. -/
def backtrackSpecLCV (c : Crossword) (d : Domains) (a : Assignment) : PyResult :=
  (backtrackAuxSpecLCV c d (c.vars.length + 1) a).1

/-- Arc consistency of `x` with respect to `y` under the store `d`:
whenever the overlap is defined, every word in `x`'s domain has a
distinct supporting word in `y`'s domain agreeing at the overlap. -/
def ArcOK (c : Crossword) (d : Domains) (x y : Variable) : Prop :=
  ∀ i j, c.overlaps x y = some (i, j) →
    ∀ X ∈ domOf d x, ∃ Y ∈ domOf d y, charAt X i = charAt Y j ∧ X ≠ Y

/-- The AC-3 loop invariant: every ordered pair of variables not
currently on the worklist is arc consistent. -/
def QueueInv (c : Crossword) (d : Domains) (q : List (Variable × Variable)) : Prop :=
  ∀ x ∈ c.vars, ∀ y ∈ c.vars, (x, y) ∉ q → ArcOK c d x y

/-- Well-formedness of the overlap relation, true of every crossword
the ingestion collaborator produces: no variable overlaps itself, and
the relation is symmetric with the two indices swapped. -/
def WfOverlaps (c : Crossword) : Prop :=
  (∀ x ∈ c.vars, c.overlaps x x = none) ∧
  (∀ x ∈ c.vars, ∀ y ∈ c.vars,
    c.overlaps y x = (c.overlaps x y).map (fun p => (p.2, p.1)))

/-- Two parallel length-3 slots that share no cell. -/
def vA : Variable := ⟨0, 0, Direction.across, 3⟩

/-- Second slot of the duplicate-word puzzle. -/
def vB : Variable := ⟨2, 0, Direction.across, 3⟩

/-- A crossword with two non-overlapping slots and the single word
"AAA": the stock of words forces any complete assignment to reuse it. -/
def cDup : Crossword :=
  ⟨[vA, vB], fun _ _ => none, [['A', 'A', 'A']]⟩

/-- An assignment giving the same word to two distinct variables. -/
def aDup : Assignment := [(vA, ['A', 'A', 'A']), (vB, ['A', 'A', 'A'])]

/-- A crossword with a single length-3 slot whose only available word
has length 2, so that no solution exists. -/
def cNoSol : Crossword :=
  ⟨[vA], fun _ _ => none, [['A', 'B']]⟩

/-- An isolated slot (no neighbors). -/
def vI : Variable := ⟨0, 0, Direction.across, 2⟩

/-- A slot overlapping `vQ`. -/
def vP : Variable := ⟨1, 0, Direction.across, 2⟩

/-- A slot overlapping `vP`. -/
def vQ : Variable := ⟨1, 0, Direction.down, 2⟩

/-- A crossword in which `vP` and `vQ` overlap while `vI` is isolated:
with equal domain sizes, the variable-selection tie-break must choose
between degrees 0, 1 and 1. -/
def cSel : Crossword :=
  ⟨[vI, vP, vQ],
   fun x y =>
     if (x = vP ∧ y = vQ) ∨ (x = vQ ∧ y = vP) then some (0, 0) else none,
   [['a', 'a'], ['b', 'b']]⟩

/-- A domain store for `cSel` giving every variable the same two words,
forcing the minimum-remaining-values tie. -/
def dSel : Domains :=
  [(vI, [['a', 'a'], ['b', 'b']]),
   (vP, [['a', 'a'], ['b', 'b']]),
   (vQ, [['a', 'a'], ['b', 'b']])]

/-- First slot of the two-slot crossing puzzle. -/
def vX : Variable := ⟨0, 0, Direction.across, 2⟩

/-- Second slot of the two-slot crossing puzzle. -/
def vY : Variable := ⟨0, 0, Direction.down, 2⟩

/-- Two length-2 slots crossing at index 0 of each. -/
def cXY : Crossword :=
  ⟨[vX, vY],
   fun x y =>
     if (x = vX ∧ y = vY) ∨ (x = vY ∧ y = vX) then some (0, 0) else none,
   [['a', 'b'], ['a', 'a'], ['b', 'b'], ['b', 'c']]⟩

/-- A domain store for `cXY` whose stored order for `vX` ("ab" before
"aa") differs from the least-constraining-value order ("aa" first). -/
def dXY : Domains :=
  [(vX, [['a', 'b'], ['a', 'a']]),
   (vY, [['a', 'b'], ['b', 'b'], ['b', 'c']])]

/-- The arc-consistent fixpoint AC-3 reaches from `dXY` on `cXY`. -/
def dXYfix : Domains :=
  [(vX, [['a', 'a']]), (vY, [['a', 'b']])]

/-- A store whose only variable has an empty domain, making the word
loop of `backtrack` exit immediately with the failure string. -/
def dEmptyDom : Domains := [(vA, [])]

/-- A filter shortens a list exactly when some element fails the
predicate. -/
theorem length_filter_lt_iff (p : α → Bool) (l : List α) :
    (l.filter p).length < l.length ↔ ∃ x ∈ l, ¬ p x = true := by
  induction l with
  | nil => simp
  | cons a l ih =>
    by_cases hp : p a = true
    · simpa [hp, Nat.succ_lt_succ_iff] using ih
    · simp only [List.filter_cons, hp, if_false, Bool.false_eq_true, List.length_cons]
      constructor
      · intro _
        exact ⟨a, by simp, by simp [hp]⟩
      · intro _
        exact Nat.lt_succ_of_le (List.length_filter_le _ _)

/-- Looking up any other key is unaffected by a store update. -/
theorem domOf_updateD_ne (d : Domains) (x v : Variable) (ws : List Word) (hv : v ≠ x) :
    domOf (updateD d x ws) v = domOf d v := by
  induction d with
  | nil => rfl
  | cons p rest ih =>
    obtain ⟨u, l⟩ := p
    by_cases hu : u = x
    · subst hu
      have huv : ¬ u = v := fun h => hv h.symm
      simp [updateD, domOf, huv]
    · simp only [updateD, hu, if_false]
      by_cases huv : u = v
      · simp [domOf, huv]
      · simp [domOf, huv, ih]

/-- Looking up the updated key returns the new value, unless the key has
no entry at all, in which case the update is a no-op on an empty
lookup. -/
theorem domOf_updateD_or (d : Domains) (x : Variable) (ws : List Word) :
    domOf (updateD d x ws) x = ws ∨ (updateD d x ws = d ∧ domOf d x = []) := by
  induction d with
  | nil => exact Or.inr ⟨rfl, rfl⟩
  | cons p rest ih =>
    obtain ⟨u, l⟩ := p
    by_cases hu : u = x
    · subst hu
      exact Or.inl (by simp [updateD, domOf])
    · rcases ih with h | ⟨h1, h2⟩
      · exact Or.inl (by simp [updateD, domOf, hu, h])
      · exact Or.inr ⟨by simp [updateD, hu, h1], by simp [domOf, hu, h2]⟩

/-- Writing back a key's current value leaves the store unchanged. -/
theorem updateD_domOf_self (d : Domains) (x : Variable) :
    updateD d x (domOf d x) = d := by
  induction d with
  | nil => rfl
  | cons p rest ih =>
    obtain ⟨u, l⟩ := p
    by_cases hu : u = x
    · subst hu
      simp [updateD, domOf]
    · simp only [updateD, domOf, hu, if_false, List.cons.injEq, true_and]
      exact ih

/-- `revise` with an undefined overlap changes nothing and reports no
revision. -/
theorem revise_none (c : Crossword) (d : Domains) (x y : Variable)
    (h : c.overlaps x y = none) : revise c d x y = (d, false) := by
  simp [revise, h]

/-- A reported revision requires a defined overlap. -/
theorem revise_true_overlap (c : Crossword) (d : Domains) (x y : Variable)
    (h : (revise c d x y).2 = true) : (c.overlaps x y).isSome := by
  cases hov : c.overlaps x y with
  | none => rw [revise_none c d x y hov] at h; exact absurd h (by simp)
  | some p => simp [hov]

/-- Domains of variables other than `x` survive `revise(x, y)`
unchanged. -/
theorem revise_fst_ne (c : Crossword) (d : Domains) (x y z : Variable) (hz : z ≠ x) :
    domOf (revise c d x y).1 z = domOf d z := by
  cases hov : c.overlaps x y with
  | none => rw [revise_none c d x y hov]
  | some p =>
    obtain ⟨i, j⟩ := p
    simp only [revise, hov]
    exact domOf_updateD_ne _ _ _ _ hz

/-- Membership in `x`'s domain after `revise(x, y)`: exactly the old
members having a distinct supporting word in `y`'s old domain. -/
theorem revise_mem_iff (c : Crossword) (d : Domains) (x y : Variable) (i j : Nat)
    (h : c.overlaps x y = some (i, j)) (X : Word) :
    X ∈ domOf (revise c d x y).1 x ↔
      X ∈ domOf d x ∧ ∃ Y ∈ domOf d y, charAt X i = charAt Y j ∧ X ≠ Y := by
  simp only [revise, h]
  rcases domOf_updateD_or d x
      ((domOf d x).filter (fun X => decide (∃ Y ∈ domOf d y, charAt X i = charAt Y j ∧ X ≠ Y)))
    with hor | ⟨h1, h2⟩
  · rw [hor, List.mem_filter]
    simp
  · rw [h1, h2]
    simp [h2]

/-- `revise` only ever shrinks domains. -/
theorem revise_subset (c : Crossword) (d : Domains) (x y v : Variable) (X : Word)
    (hX : X ∈ domOf (revise c d x y).1 v) : X ∈ domOf d v := by
  by_cases hv : v = x
  · subst hv
    cases hov : c.overlaps v y with
    | none => rwa [revise_none c d v y hov] at hX
    | some p =>
      obtain ⟨i, j⟩ := p
      exact ((revise_mem_iff c d v y i j hov X).mp hX).1
  · rwa [revise_fst_ne c d x y v hv] at hX

/-- The boolean returned by `revise` under a defined overlap: `true`
exactly when some old member of `x`'s domain lacks support. -/
theorem revise_snd_true_iff (c : Crossword) (d : Domains) (x y : Variable) (i j : Nat)
    (h : c.overlaps x y = some (i, j)) :
    (revise c d x y).2 = true ↔
      ∃ X ∈ domOf d x, ¬ ∃ Y ∈ domOf d y, charAt X i = charAt Y j ∧ X ≠ Y := by
  simp only [revise, h, decide_eq_true_eq]
  rw [length_filter_lt_iff]
  simp

/-- When `revise` reports no revision the store is returned unchanged. -/
theorem revise_false_fst (c : Crossword) (d : Domains) (x y : Variable)
    (h : (revise c d x y).2 = false) : (revise c d x y).1 = d := by
  cases hov : c.overlaps x y with
  | none => rw [revise_none c d x y hov]
  | some p =>
    obtain ⟨i, j⟩ := p
    simp only [revise, hov, decide_eq_false_iff_not, Nat.not_lt] at h
    have hle := List.length_filter_le
      (fun X => decide (∃ Y ∈ domOf d y, charAt X i = charAt Y j ∧ X ≠ Y)) (domOf d x)
    have heq := List.Sublist.eq_of_length (List.filter_sublist _) (le_antisymm hle h)
    simp only [revise, hov]
    rw [heq, updateD_domOf_self]

/-- A `revise` that reports no revision certifies arc consistency of
`x` with `y`. -/
theorem revise_false_arcOK (c : Crossword) (d : Domains) (x y : Variable)
    (h : (revise c d x y).2 = false) : ArcOK c d x y := by
  intro i j hov X hX
  by_contra hno
  have : (revise c d x y).2 = true := by
    rw [revise_snd_true_iff c d x y i j hov]
    exact ⟨X, hX, fun ⟨Y, hY, h1, h2⟩ => hno ⟨Y, hY, h1, h2⟩⟩
  rw [h] at this
  exact absurd this (by simp)

/-- Arc consistency of `x` with `y` makes `revise(x, y)` a no-op. -/
theorem revise_of_arcOK (c : Crossword) (d : Domains) (x y : Variable)
    (h : ArcOK c d x y) : revise c d x y = (d, false) := by
  cases hov : c.overlaps x y with
  | none => exact revise_none c d x y hov
  | some p =>
    obtain ⟨i, j⟩ := p
    have hall : ∀ X ∈ domOf d x,
        (fun X => decide (∃ Y ∈ domOf d y, charAt X i = charAt Y j ∧ X ≠ Y)) X = true := by
      intro X hX
      simpa using h i j hov X hX
    have heq := List.filter_eq_self.mpr hall
    simp only [revise, hov]
    rw [heq, updateD_domOf_self]
    simp

/-- After `revise(x, y)` with `x ≠ y`, `x` is arc consistent with `y`:
every surviving word kept its distinct support in `y`'s (untouched)
domain. -/
theorem revise_post_arcOK (c : Crossword) (d : Domains) (x y : Variable) (hxy : x ≠ y) :
    ArcOK c (revise c d x y).1 x y := by
  intro i j hov X hX
  have hmem := (revise_mem_iff c d x y i j hov X).mp hX
  obtain ⟨Y, hY, h1, h2⟩ := hmem.2
  refine ⟨Y, ?_, h1, h2⟩
  rwa [revise_fst_ne c d x y y (fun h => hxy h.symm)]

/-- A drained worklist returns the store and `true`. -/
theorem ac3Aux_nil (c : Crossword) (d : Domains) : ac3Aux c d [] = (d, [], true) := by
  rw [ac3Aux]

/-- Processing an arc whose revision changed nothing just moves on. -/
theorem ac3Aux_cons_false (c : Crossword) (d : Domains) (x y : Variable)
    (rest : List (Variable × Variable)) (h : (revise c d x y).2 = false) :
    ac3Aux c d ((x, y) :: rest) = ac3Aux c (revise c d x y).1 rest := by
  rw [ac3Aux, dif_neg (by simp [h])]

/-- Processing an arc whose revision emptied `x`'s domain stops the loop
with `false` at once. -/
theorem ac3Aux_cons_true_empty (c : Crossword) (d : Domains) (x y : Variable)
    (rest : List (Variable × Variable)) (h : (revise c d x y).2 = true)
    (he : domOf (revise c d x y).1 x = []) :
    ac3Aux c d ((x, y) :: rest) = ((revise c d x y).1, rest, false) := by
  rw [ac3Aux, dif_pos h, if_pos he]

/-- Processing an arc whose revision left `x`'s domain non-empty pushes
`(z, x)` for every neighbor `z ≠ y` onto the back of the queue. -/
theorem ac3Aux_cons_true_push (c : Crossword) (d : Domains) (x y : Variable)
    (rest : List (Variable × Variable)) (h : (revise c d x y).2 = true)
    (he : domOf (revise c d x y).1 x ≠ []) :
    ac3Aux c d ((x, y) :: rest) =
      ac3Aux c (revise c d x y).1
        (rest ++ ((neighbors c x).filter (fun z => decide (z ≠ y))).map (fun z => (z, x))) := by
  rw [ac3Aux, dif_pos h, if_neg he]

/-- The AC-3 loop only ever shrinks domains. -/
theorem ac3Aux_subset (c : Crossword) (d : Domains) (q : List (Variable × Variable))
    (v : Variable) (w : Word) (hw : w ∈ domOf (ac3Aux c d q).1 v) : w ∈ domOf d v := by
  induction d, q using ac3Aux.induct c with
  | case1 d => rwa [ac3Aux_nil] at hw
  | case2 d x y rest h he =>
    rw [ac3Aux_cons_true_empty c d x y rest h he] at hw
    exact revise_subset c d x y v w hw
  | case3 d x y rest h he ih =>
    rw [ac3Aux_cons_true_push c d x y rest h he] at hw
    exact revise_subset c d x y v w (ih hw)
  | case4 d x y rest h ih =>
    rw [ac3Aux_cons_false c d x y rest (by simpa using h)] at hw
    exact revise_subset c d x y v w (ih hw)

/-- When the AC-3 loop reports `true` the worklist has fully drained. -/
theorem ac3Aux_true_drained (c : Crossword) (d : Domains) (q : List (Variable × Variable))
    (h : (ac3Aux c d q).2.2 = true) : (ac3Aux c d q).2.1 = [] := by
  induction d, q using ac3Aux.induct c with
  | case1 d => rw [ac3Aux_nil]
  | case2 d x y rest hr he =>
    rw [ac3Aux_cons_true_empty c d x y rest hr he] at h
    exact absurd h (by simp)
  | case3 d x y rest hr he ih =>
    rw [ac3Aux_cons_true_push c d x y rest hr he] at h ⊢
    exact ih h
  | case4 d x y rest hr ih =>
    rw [ac3Aux_cons_false c d x y rest (by simpa using hr)] at h ⊢
    exact ih h

/-- When the AC-3 loop reports `false`, some domain in the returned
store is empty. -/
theorem ac3Aux_false_empty (c : Crossword) (d : Domains) (q : List (Variable × Variable))
    (h : (ac3Aux c d q).2.2 = false) : ∃ v, domOf (ac3Aux c d q).1 v = [] := by
  induction d, q using ac3Aux.induct c with
  | case1 d =>
    rw [ac3Aux_nil] at h
    exact absurd h (by simp)
  | case2 d x y rest hr he =>
    rw [ac3Aux_cons_true_empty c d x y rest hr he]
    exact ⟨x, he⟩
  | case3 d x y rest hr he ih =>
    rw [ac3Aux_cons_true_push c d x y rest hr he] at h ⊢
    exact ih h
  | case4 d x y rest hr ih =>
    rw [ac3Aux_cons_false c d x y rest (by simpa using hr)] at h ⊢
    exact ih h

/-- A worklist every arc of which revises nothing drains without
touching the store. -/
theorem ac3Aux_no_rev_drain (c : Crossword) (d : Domains) (q : List (Variable × Variable))
    (h : ∀ p ∈ q, (revise c d p.1 p.2).2 = false) : ac3Aux c d q = (d, [], true) := by
  induction q with
  | nil => exact ac3Aux_nil c d
  | cons p rest ih =>
    obtain ⟨x, y⟩ := p
    have hp : (revise c d x y).2 = false := h (x, y) (by simp)
    rw [ac3Aux_cons_false c d x y rest hp, revise_false_fst c d x y hp]
    exact ih (fun p hmem => h p (by simp [hmem]))

/-- Membership in the seeded worklist: exactly the ordered pairs of
distinct variables with a defined overlap. -/
theorem initialArcs_mem (c : Crossword) (x y : Variable) :
    (x, y) ∈ initialArcs c ↔
      x ∈ c.vars ∧ y ∈ c.vars ∧ y ≠ x ∧ (c.overlaps x y).isSome := by
  simp only [initialArcs, List.mem_flatMap, List.mem_map, List.mem_filter, Prod.mk.injEq]
  constructor
  · rintro ⟨a, ha, b, ⟨hb, hcond⟩, rfl, rfl⟩
    simp only [Bool.and_eq_true, decide_eq_true_eq] at hcond
    exact ⟨ha, hb, hcond.1, hcond.2⟩
  · rintro ⟨hx, hy, hne, hov⟩
    exact ⟨x, hx, y, ⟨hy, by simp [hne, hov]⟩, rfl, rfl⟩

/-- Membership in the neighbor list. -/
theorem neighbors_mem (c : Crossword) (x z : Variable) :
    z ∈ neighbors c x ↔ z ∈ c.vars ∧ z ≠ x ∧ (c.overlaps x z).isSome := by
  simp [neighbors, List.mem_filter]

/-- The index-swapped form of overlap symmetry. -/
theorem wfOverlaps_symm (c : Crossword) (hwf : WfOverlaps c) {x y : Variable} {i j : Nat}
    (hx : x ∈ c.vars) (hy : y ∈ c.vars) (hov : c.overlaps x y = some (i, j)) :
    c.overlaps y x = some (j, i) := by
  rw [hwf.2 x hx y hy, hov]
  rfl

/-- Popping an arc that revised nothing preserves the worklist
invariant. -/
theorem queueInv_cons_false (c : Crossword) (d : Domains) (x y : Variable)
    (rest : List (Variable × Variable)) (h : (revise c d x y).2 = false)
    (hinv : QueueInv c d ((x, y) :: rest)) : QueueInv c d rest := by
  intro u hu v hv hnot
  by_cases hp : (u, v) = (x, y)
  · have h1 : u = x := congrArg Prod.fst hp
    have h2 : v = y := congrArg Prod.snd hp
    subst h1
    subst h2
    exact revise_false_arcOK c d u v h
  · exact hinv u hu v hv (by simp [List.mem_cons, hp, hnot])

/-- Popping an arc whose revision shrank `x0`'s domain, then pushing
`(z, x0)` for every neighbor `z ≠ y0`, preserves the worklist
invariant.  The excluded arc `(y0, x0)` stays consistent because the
overlap constraint is symmetric: a word of `x0`'s domain whose removal
would orphan a word of `y0`'s domain would itself have had support,
hence would have been kept. -/
theorem queueInv_cons_true (c : Crossword) (hwf : WfOverlaps c) (d : Domains)
    (x0 y0 : Variable) (rest : List (Variable × Variable))
    (h : (revise c d x0 y0).2 = true)
    (hinv : QueueInv c d ((x0, y0) :: rest)) :
    QueueInv c (revise c d x0 y0).1
      (rest ++ ((neighbors c x0).filter (fun z => decide (z ≠ y0))).map (fun z => (z, x0))) := by
  intro u hu v hv hnot
  intro i j hov X hX
  rw [List.mem_append] at hnot
  push_neg at hnot
  obtain ⟨hnrest, hnpush⟩ := hnot
  have huv : u ≠ v := by
    intro huv
    rw [huv, hwf.1 v hv] at hov
    exact Option.noConfusion hov
  by_cases hvx : v = x0
  · -- the target domain is the revised one
    have hx0m : x0 ∈ c.vars := hvx ▸ hv
    have hy0x : y0 ≠ x0 := by
      intro hy
      have hs := revise_true_overlap c d x0 y0 h
      rw [hy, hwf.1 x0 hx0m] at hs
      exact absurd hs (by simp)
    by_cases huy : u = y0
    · -- the excluded reverse arc `(y0, x0)`
      have hsym : c.overlaps x0 y0 = some (j, i) := by
        have hs := wfOverlaps_symm c hwf hu hv hov
        rw [hvx, huy] at hs
        exact hs
      have hunx : u ≠ x0 := fun hh => hy0x (huy ▸ hh)
      have hXd : X ∈ domOf d u := by
        rwa [revise_fst_ne c d x0 y0 u hunx] at hX
      have hold : ArcOK c d u v := by
        apply hinv u hu v hv
        intro hmem
        rcases List.mem_cons.mp hmem with hh | hh
        · exact hunx (congrArg Prod.fst hh)
        · exact hnrest hh
      obtain ⟨V, hV, hcv, hne⟩ := hold i j hov X hXd
      refine ⟨V, ?_, hcv, hne⟩
      rw [hvx, revise_mem_iff c d x0 y0 j i hsym V]
      refine ⟨by rw [← hvx]; exact hV, X, by rw [← huy]; exact hXd, hcv.symm,
        fun hh => hne hh.symm⟩
    · -- any other arc `(u, x0)` was pushed, so this case is vacuous
      exfalso
      apply hnpush
      have hsym : c.overlaps x0 u = some (j, i) := by
        have hs := wfOverlaps_symm c hwf hu hv hov
        rw [hvx] at hs
        exact hs
      have hunx : u ≠ x0 := fun hh => huv (hh.trans hvx.symm)
      have humem : u ∈ (neighbors c x0).filter (fun z => decide (z ≠ y0)) := by
        rw [List.mem_filter]
        exact ⟨(neighbors_mem c x0 u).mpr ⟨hu, hunx, by simp [hsym]⟩, by simp [huy]⟩
      exact List.mem_map.mpr ⟨u, humem, by rw [hvx]⟩
  · have hdv : domOf (revise c d x0 y0).1 v = domOf d v := revise_fst_ne c d x0 y0 v hvx
    by_cases hux : u = x0
    · have hx0y0 : x0 ≠ y0 := by
        intro hh
        have hs := revise_true_overlap c d x0 y0 h
        rw [← hh, hwf.1 x0 (hux ▸ hu)] at hs
        exact absurd hs (by simp)
      by_cases hvy : v = y0
      · have hov0 : c.overlaps x0 y0 = some (i, j) := by
          rw [← hux, ← hvy]
          exact hov
        have hX0 : X ∈ domOf (revise c d x0 y0).1 x0 := by
          rw [hux] at hX
          exact hX
        obtain ⟨Y, hY, h1, h2⟩ := revise_post_arcOK c d x0 y0 hx0y0 i j hov0 X hX0
        refine ⟨Y, ?_, h1, h2⟩
        rw [hvy]
        exact hY
      · have hold : ArcOK c d u v := by
          apply hinv u hu v hv
          intro hmem
          rcases List.mem_cons.mp hmem with hh | hh
          · exact hvy (congrArg Prod.snd hh)
          · exact hnrest hh
        have hXd : X ∈ domOf d u := revise_subset c d x0 y0 u X hX
        obtain ⟨Y, hY, h1, h2⟩ := hold i j hov X hXd
        exact ⟨Y, hdv ▸ hY, h1, h2⟩
    · have hdu : domOf (revise c d x0 y0).1 u = domOf d u := revise_fst_ne c d x0 y0 u hux
      have hold : ArcOK c d u v := by
        apply hinv u hu v hv
        intro hmem
        rcases List.mem_cons.mp hmem with hh | hh
        · exact hux (congrArg Prod.fst hh)
        · exact hnrest hh
      obtain ⟨Y, hY, h1, h2⟩ := hold i j hov X (hdu ▸ hX)
      exact ⟨Y, hdv ▸ hY, h1, h2⟩

/-- The worklist invariant is carried through the whole AC-3 loop: if
the loop drains successfully, every pair of variables is arc consistent
in the final store. -/
theorem ac3Aux_inv (c : Crossword) (hwf : WfOverlaps c) (d : Domains)
    (q : List (Variable × Variable)) (hinv : QueueInv c d q)
    (htrue : (ac3Aux c d q).2.2 = true) : QueueInv c (ac3Aux c d q).1 [] := by
  induction d, q using ac3Aux.induct c with
  | case1 d =>
    rw [ac3Aux_nil] at htrue ⊢
    exact hinv
  | case2 d x y rest hr he =>
    rw [ac3Aux_cons_true_empty c d x y rest hr he] at htrue
    exact absurd htrue (by simp)
  | case3 d x y rest hr he ih =>
    rw [ac3Aux_cons_true_push c d x y rest hr he] at htrue ⊢
    exact ih (queueInv_cons_true c hwf d x y rest hr hinv) htrue
  | case4 d x y rest hr ih =>
    have hrf : (revise c d x y).2 = false := by
      cases hb : (revise c d x y).2
      · rfl
      · exact absurd hb hr
    rw [ac3Aux_cons_false c d x y rest hrf] at htrue ⊢
    have hstep : QueueInv c (revise c d x y).1 rest := by
      rw [revise_false_fst c d x y hrf]
      exact queueInv_cons_false c d x y rest hrf hinv
    exact ih hstep htrue

/-- The seeded worklist satisfies the invariant vacuously: every
constrained ordered pair of distinct variables is on it, and
self-pairs carry no overlap in a well-formed crossword. -/
theorem initialArcs_queueInv (c : Crossword) (hwf : WfOverlaps c) (d : Domains) :
    QueueInv c d (initialArcs c) := by
  intro x hx y hy hnot i j hov X hX
  by_cases hxy : y = x
  · rw [hxy, hwf.1 x hx] at hov
    exact Option.noConfusion hov
  · exact absurd ((initialArcs_mem c x y).mpr ⟨hx, hy, hxy, by simp [hov]⟩) hnot

/-- Insertion touches membership only by adding the new element. -/
theorem mem_insertSorted (key : α → Nat) (a b : α) (l : List α) :
    b ∈ insertSorted key a l ↔ b = a ∨ b ∈ l := by
  induction l with
  | nil => simp [insertSorted]
  | cons x l ih =>
    simp only [insertSorted]
    by_cases h : key a ≤ key x
    · simp [h]
    · rw [if_neg h]
      simp only [List.mem_cons, ih]
      tauto

/-- The stable sort permutes, hence preserves, membership. -/
theorem mem_stableSortByKey (key : α → Nat) (b : α) (l : List α) :
    b ∈ stableSortByKey key l ↔ b ∈ l := by
  induction l with
  | nil => simp [stableSortByKey]
  | cons a l ih =>
    simp only [stableSortByKey, mem_insertSorted, List.mem_cons, ih]

/-- Whatever variable `select_unassigned_variable` returns came from the
unassigned pool. -/
theorem select_some_unassigned (c : Crossword) (d : Domains) (a : Assignment) (v : Variable)
    (h : selectUnassignedVariable c d a = some v) : lookupA a v = none := by
  have hmem : v ∈ c.vars.filter (fun v => (lookupA a v).isNone) := by
    unfold selectUnassignedVariable at h
    rcases hun : c.vars.filter (fun v => (lookupA a v).isNone) with _ | ⟨v0, _ | ⟨v1, rest⟩⟩
    · rw [hun] at h
      exact absurd h (by simp)
    · rw [hun] at h
      simp only [Option.some.injEq] at h
      simp [h]
    · rw [hun] at h
      simp only [Option.some.injEq] at h
      rcases hs : stableSortByKey (fun v => (domOf d v).length) (v0 :: v1 :: rest)
        with _ | ⟨s0, _ | ⟨s1, srest⟩⟩
      · rw [hs] at h
        simp at h
      · rw [hs] at h
        simp at h
      · rw [hs] at h
        simp only [Option.some.injEq] at h
        by_cases hif : (domOf d s1).length ≠ (domOf d s0).length
        · rw [if_pos hif] at h
          simp only [Option.some.injEq] at h
          have hv2 : v ∈ s0 :: s1 :: srest := by
            rw [← h]
            simp
          exact (mem_stableSortByKey _ v _).mp (hs ▸ hv2)
        · rw [if_neg hif] at h
          rcases ht : stableSortByKey (fun v => (neighbors c v).length)
              ((s0 :: s1 :: srest).filter
                (fun v => (domOf d v).length == (domOf d s0).length))
            with _ | ⟨t0, trest⟩
          · rw [ht] at h
            simp at h
          · rw [ht] at h
            simp only [Option.some.injEq] at h
            have ht0 : v ∈ stableSortByKey (fun v => (neighbors c v).length)
                ((s0 :: s1 :: srest).filter
                  (fun v => (domOf d v).length == (domOf d s0).length)) := by
              rw [ht, ← h]
              simp
            have hv1 := (mem_stableSortByKey _ v _).mp ht0
            have hv2 : v ∈ s0 :: s1 :: srest := (List.mem_filter.mp hv1).1
            exact (mem_stableSortByKey _ v _).mp (hs ▸ hv2)
  have := (List.mem_filter.mp hmem).2
  simpa using this

/-- Popping a freshly inserted key restores the dict exactly, provided
the key was absent before (which `select_unassigned_variable`
guarantees). -/
theorem popA_insertA (a : Assignment) (v : Variable) (w : Word)
    (h : lookupA a v = none) : popA (insertA a v w) v = a := by
  induction a with
  | nil => simp [insertA, popA]
  | cons p rest ih =>
    obtain ⟨u, w0⟩ := p
    by_cases hu : u = v
    · rw [lookupA, if_pos hu] at h
      exact absurd h (by simp)
    · rw [lookupA, if_neg hu] at h
      simp only [insertA, hu, if_false, popA]
      rw [ih h]

/-- If trying every word failed, the word loop hands the assignment back
exactly as it received it, provided the recursive call restores its own
tentative bindings. -/
theorem tryWords_failure_restores (c : Crossword) (v : Variable)
    (recur : Assignment → PyResult × Assignment)
    (hrec : ∀ a1, (recur a1).1 = PyResult.str "failure" → (recur a1).2 = a1)
    (ws : List Word) (a : Assignment) (hv : lookupA a v = none)
    (hfail : (tryWords c v recur ws a).1 = PyResult.str "failure") :
    (tryWords c v recur ws a).2 = a := by
  induction ws generalizing a with
  | nil => simp [tryWords]
  | cons w ws ih =>
    simp only [tryWords] at hfail ⊢
    by_cases hc : consistent c (insertA a v w) = true
    · rw [if_pos hc] at hfail ⊢
      by_cases hr : (recur (insertA a v w)).1 = PyResult.str "failure"
      · rw [if_pos hr] at hfail ⊢
        rw [hrec _ hr, popA_insertA a v w hv] at hfail ⊢
        exact ih a hv hfail
      · rw [if_neg hr] at hfail ⊢
        exact absurd hfail hr
    · rw [if_neg hc] at hfail ⊢
      rw [popA_insertA a v w hv] at hfail ⊢
      exact ih a hv hfail

/-- Concrete AC-3 run on the crossing puzzle: "ab" is pruned from `vX`
("ab" in `vY`'s domain is identical, so it does not support it), then
"bb" and "bc" are pruned from `vY`. -/
theorem eval_ac3Aux_cXY : ac3Aux cXY dXY [(vX, vY), (vY, vX)] = (dXYfix, [], true) := by
  have e1 : ac3Aux cXY dXY [(vX, vY), (vY, vX)] =
      ac3Aux cXY [(vX, [['a', 'a']]), (vY, [['a', 'b'], ['b', 'b'], ['b', 'c']])] [(vY, vX)] := by
    rw [ac3Aux_cons_true_push cXY dXY vX vY _ (by decide) (by decide)]
    rfl
  have e2 : ac3Aux cXY [(vX, [['a', 'a']]), (vY, [['a', 'b'], ['b', 'b'], ['b', 'c']])]
      [(vY, vX)] = ac3Aux cXY dXYfix [] := by
    rw [ac3Aux_cons_true_push cXY _ vY vX _ (by decide) (by decide)]
    rfl
  rw [e1, e2, ac3Aux_nil]

/-- C1: the claim that every non-failure result of `solve` uses no word
twice FAILS on the code: on a puzzle with two non-overlapping length-3
slots and word list {"AAA"}, `solve` returns the complete assignment
giving the single word "AAA" to both distinct variables.  (Length and
overlap consistency do hold; the duplicate-word part of the claim is
violated because `consistent` never checks word uniqueness.) -/
theorem solve_returns_duplicate_words :
    solve cDup = PyResult.dict aDup ∧ vA ≠ vB ∧
    lookupA aDup vA = some ['A', 'A', 'A'] ∧ lookupA aDup vB = some ['A', 'A', 'A'] := by
  refine ⟨?_, by decide, by decide, by decide⟩
  show backtrack cDup (ac3Full cDup (enforceNodeConsistency (initDomains cDup)) none).1 [] = _
  rw [show ac3Full cDup (enforceNodeConsistency (initDomains cDup)) none =
      (enforceNodeConsistency (initDomains cDup), [], true) from by
    show ac3Aux cDup _ (initialArcs cDup) = _
    rw [show initialArcs cDup = [] from rfl, ac3Aux_nil]]
  decide

/-- C2: the claimed iff FAILS on the code: `consistent` accepts an
assignment mapping the two distinct (non-overlapping, length-correct)
variables `vA` and `vB` to the identical word "AAA", although the claim
requires `consistent` to return false on any duplicate-word
assignment — the code performs no word-uniqueness check at all. -/
theorem consistent_true_on_duplicate_words :
    consistent cDup aDup = true ∧ vA ≠ vB ∧
    lookupA aDup vA = lookupA aDup vB ∧
    lookupA aDup vA = some ['A', 'A', 'A'] := by
  decide

/-- C3: the claim that failure is surfaced as a tagged value that is
"not a sentinel string" FAILS on the code: on an unsolvable puzzle (one
length-3 slot, word list {"AB"}), `solve`/`backtrack` returns the
Python string literal `"failure"` — while `backtrack`'s own docstring
says it returns `None` and `main` tests `assignment is None`, so the
caller does not recognize the sentinel. -/
theorem solve_failure_is_sentinel_string :
    solve cNoSol = PyResult.str "failure" := by
  show backtrack cNoSol
    (ac3Full cNoSol (enforceNodeConsistency (initDomains cNoSol)) none).1 [] = _
  rw [show ac3Full cNoSol (enforceNodeConsistency (initDomains cNoSol)) none =
      (enforceNodeConsistency (initDomains cNoSol), [], true) from by
    show ac3Aux cNoSol _ (initialArcs cNoSol) = _
    rw [show initialArcs cNoSol = [] from rfl, ac3Aux_nil]]
  decide

/-- C4: the degree tie-break FAILS on the code: with three unassigned
variables of equal domain size (degrees 0, 1 and 1), the code returns
the isolated variable `vI` of MINIMUM degree 0 — it sorts the tied
variables ascending by neighbor count and takes the first — although
the claim (and the function's own docstring) requires the largest
neighbor-set size. -/
theorem select_unassigned_variable_prefers_min_degree :
    selectUnassignedVariable cSel dSel [] = some vI ∧
    (neighbors cSel vI).length = 0 ∧
    (neighbors cSel vP).length = 1 ∧
    (neighbors cSel vQ).length = 1 ∧
    (domOf dSel vI).length = 2 ∧ (domOf dSel vP).length = 2 ∧ (domOf dSel vQ).length = 2 := by
  decide

/-- C5: the claim that `backtrack` tries values in the order produced by
`order_domain_values` FAILS on the code: `backtrack` iterates the raw
stored domain.  Concretely, `vX`'s stored order is ["ab", "aa"] while
its least-constraining-value order is ["aa", "ab"], and the code's
search returns `vX ↦ "ab"` whereas the spec-prescribed LCV-ordered
search returns `vX ↦ "aa"`. -/
theorem backtrack_ignores_order_domain_values :
    domOf dXY vX = [['a', 'b'], ['a', 'a']] ∧
    orderDomainValues cXY dXY vX [] = [['a', 'a'], ['a', 'b']] ∧
    backtrack cXY dXY [] = PyResult.dict [(vX, ['a', 'b']), (vY, ['a', 'b'])] ∧
    backtrackSpecLCV cXY dXY [] = PyResult.dict [(vX, ['a', 'a']), (vY, ['a', 'b'])] := by
  decide

/-- C6: `revise(x, y)` behaves exactly as claimed: an undefined overlap
changes nothing and returns false; under a defined overlap it removes
from `x`'s domain exactly the words with no distinct agreeing support
in `y`'s domain, leaves every other variable's domain unchanged, and
returns true iff at least one word was removed. -/
theorem revise_exact_characterization (c : Crossword) (d : Domains) (x y : Variable) :
    (c.overlaps x y = none → revise c d x y = (d, false)) ∧
    (∀ i j, c.overlaps x y = some (i, j) →
      (∀ X, X ∈ domOf (revise c d x y).1 x ↔
        X ∈ domOf d x ∧ ∃ Y ∈ domOf d y, charAt X i = charAt Y j ∧ X ≠ Y) ∧
      (∀ z, z ≠ x → domOf (revise c d x y).1 z = domOf d z) ∧
      ((revise c d x y).2 = true ↔
        ∃ X ∈ domOf d x, ¬ ∃ Y ∈ domOf d y, charAt X i = charAt Y j ∧ X ≠ Y)) := by
  exact ⟨revise_none c d x y, fun i j hov =>
    ⟨revise_mem_iff c d x y i j hov,
     fun z hz => revise_fst_ne c d x y z hz,
     revise_snd_true_iff c d x y i j hov⟩⟩

/-- Instantiation of the `revise` characterization on the crossing
puzzle: "aa" survives in `vX`'s domain, `vY`'s domain is untouched, and
the revision is reported. -/
theorem revise_exact_characterization_witness :
    (['a', 'a'] ∈ domOf (revise cXY dXY vX vY).1 vX) ∧
    domOf (revise cXY dXY vX vY).1 vY = domOf dXY vY ∧
    (revise cXY dXY vX vY).2 = true := by
  have h := (revise_exact_characterization cXY dXY vX vY).2 0 0 (by decide)
  exact ⟨(h.1 ['a', 'a']).mpr (by decide), h.2.1 vY (by decide), h.2.2.mpr (by decide)⟩

/-- C7: `ac3` processes its worklist as claimed: without a supplied
arcs argument it runs on the seed containing exactly the ordered pairs
of distinct variables with a defined overlap; it pops the front arc and
calls `revise`; a revision that emptied the domain returns false at
once; any other revision pushes `(z, x)` for every neighbor `z ≠ y`
onto the back; a drained queue returns true; and a false return always
leaves some empty domain. -/
theorem ac3_fifo_processing (c : Crossword) (d : Domains) :
    (ac3Full c d none = ac3Aux c d (initialArcs c)) ∧
    (∀ x y, (x, y) ∈ initialArcs c ↔
      x ∈ c.vars ∧ y ∈ c.vars ∧ y ≠ x ∧ (c.overlaps x y).isSome) ∧
    (ac3Aux c d [] = (d, [], true)) ∧
    (∀ x y rest, (revise c d x y).2 = false →
      (revise c d x y).1 = d ∧ ac3Aux c d ((x, y) :: rest) = ac3Aux c d rest) ∧
    (∀ x y rest, (revise c d x y).2 = true → domOf (revise c d x y).1 x = [] →
      ac3Aux c d ((x, y) :: rest) = ((revise c d x y).1, rest, false)) ∧
    (∀ x y rest, (revise c d x y).2 = true → domOf (revise c d x y).1 x ≠ [] →
      ac3Aux c d ((x, y) :: rest) =
        ac3Aux c (revise c d x y).1
          (rest ++ ((neighbors c x).filter (fun z => decide (z ≠ y))).map (fun z => (z, x)))) ∧
    (∀ q, (ac3Aux c d q).2.2 = false → ∃ v, domOf (ac3Aux c d q).1 v = []) := by
  refine ⟨rfl, initialArcs_mem c, ac3Aux_nil c d, ?_,
    ac3Aux_cons_true_empty c d, ac3Aux_cons_true_push c d, ac3Aux_false_empty c d⟩
  intro x y rest hf
  refine ⟨revise_false_fst c d x y hf, ?_⟩
  rw [ac3Aux_cons_false c d x y rest hf, revise_false_fst c d x y hf]

/-- Instantiation of the FIFO characterization: the seed of the
crossing puzzle contains `(vX, vY)`, the empty queue drains with true,
and processing `(vX, vY)` steps to the revised store with the pushed
arcs. -/
theorem ac3_fifo_processing_witness :
    ((vX, vY) ∈ initialArcs cXY) ∧
    ac3Aux cXY dXY [] = (dXY, [], true) ∧
    ac3Aux cXY dXY [(vX, vY)] =
      ac3Aux cXY (revise cXY dXY vX vY).1
        ([] ++ ((neighbors cXY vX).filter (fun z => decide (z ≠ vY))).map (fun z => (z, vX))) := by
  have h := ac3_fifo_processing cXY dXY
  exact ⟨(h.2.1 vX vY).mpr (by decide), h.2.2.1,
    h.2.2.2.2.2.1 vX vY [] (by decide) (by decide)⟩

/-- C8: whenever a `backtrack` call evaluates to the failure value, the
assignment dict it hands back is exactly the one it received — every
tentative binding inserted at this level and below has been popped
again. -/
theorem backtrack_failure_restores_assignment (c : Crossword) (d : Domains) (fuel : Nat)
    (a : Assignment) (hfail : (backtrackAux c d fuel a).1 = PyResult.str "failure") :
    (backtrackAux c d fuel a).2 = a := by
  induction fuel generalizing a with
  | zero => simp [backtrackAux] at hfail
  | succ n ih =>
    simp only [backtrackAux] at hfail ⊢
    by_cases hcomp : assignmentComplete c a = true
    · rw [if_pos hcomp] at hfail
      exact absurd hfail (by simp)
    · rw [if_neg hcomp] at hfail ⊢
      cases hsel : selectUnassignedVariable c d a with
      | none =>
        rw [hsel] at hfail
      | some v =>
        rw [hsel] at hfail
        exact tryWords_failure_restores c v (backtrackAux c d n) (fun a1 => ih a1)
          (domOf d v) a (select_some_unassigned c d a v hsel) hfail

/-- Instantiation of assignment restoration: on the unsolvable puzzle
the failed search hands back the empty assignment it started from. -/
theorem backtrack_failure_restores_assignment_witness :
    (backtrackAux cNoSol dEmptyDom 2 []).1 = PyResult.str "failure" ∧
    (backtrackAux cNoSol dEmptyDom 2 []).2 = [] :=
  ⟨by decide, backtrack_failure_restores_assignment cNoSol dEmptyDom 2 [] (by decide)⟩

/-- C9: for a well-formed overlap relation, `ac3` only ever shrinks
domains, and a second run on the store produced by a successful first
run removes nothing — the successful output is a fixpoint. -/
theorem ac3_monotone_and_fixpoint (c : Crossword) (d : Domains) (hwf : WfOverlaps c) :
    (∀ v w, w ∈ domOf (ac3Full c d none).1 v → w ∈ domOf d v) ∧
    (∀ d2 q2, ac3Full c d none = (d2, q2, true) → ac3Full c d2 none = (d2, [], true)) := by
  constructor
  · intro v w hw
    exact ac3Aux_subset c d (initialArcs c) v w hw
  · intro d2 q2 heq
    have heq2 : ac3Aux c d (initialArcs c) = (d2, q2, true) := heq
    have htrue : (ac3Aux c d (initialArcs c)).2.2 = true := by rw [heq2]
    have hend := ac3Aux_inv c hwf d (initialArcs c) (initialArcs_queueInv c hwf d) htrue
    rw [heq2] at hend
    show ac3Aux c d2 (initialArcs c) = (d2, [], true)
    apply ac3Aux_no_rev_drain
    intro p hp
    obtain ⟨x, y⟩ := p
    have hm := (initialArcs_mem c x y).mp hp
    have harc : ArcOK c d2 x y := hend x hm.1 y hm.2.1 (by simp)
    rw [revise_of_arcOK c d2 x y harc]

/-- Instantiation of monotonicity and the fixpoint property on the
crossing puzzle: the first run reaches `dXYfix` and the second run on
`dXYfix` returns it unchanged; the surviving word "aa" indeed came from
the original domain. -/
theorem ac3_monotone_and_fixpoint_witness :
    ac3Full cXY dXYfix none = (dXYfix, [], true) ∧ ['a', 'a'] ∈ domOf dXY vX := by
  have h := ac3_monotone_and_fixpoint cXY dXY ⟨by decide, by decide⟩
  refine ⟨h.2 dXYfix [] eval_ac3Aux_cXY, h.1 vX ['a', 'a'] ?_⟩
  rw [show ac3Full cXY dXY none = (dXYfix, [], true) from eval_ac3Aux_cXY]
  decide

/-- C10: when `ac3` is handed an explicit arcs list (which the Python
code consumes destructively, popping the front and appending to the
back), a `true` return means the caller's list has been fully drained:
the final worklist is empty. -/
theorem ac3_supplied_arcs_drained_on_success (c : Crossword) (d : Domains)
    (arcs : List (Variable × Variable))
    (h : (ac3Full c d (some arcs)).2.2 = true) : (ac3Full c d (some arcs)).2.1 = [] :=
  ac3Aux_true_drained c d arcs h

/-- Instantiation of worklist draining on a successful supplied-arcs
run of the crossing puzzle. -/
theorem ac3_supplied_arcs_drained_on_success_witness :
    (ac3Full cXY dXY (some [(vX, vY), (vY, vX)])).2.1 = [] := by
  apply ac3_supplied_arcs_drained_on_success
  rw [show ac3Full cXY dXY (some [(vX, vY), (vY, vX)]) = (dXYfix, [], true) from
    eval_ac3Aux_cXY]

end CrosswordCSP
